import Mathlib

/-!
Verification of the simple educational blockchain
(`src/code-examples/python/simple_blockchain.py`) against its
natural-language specification.

Modelling conventions:
* Python `float` amounts are modelled as `Int` (exact arithmetic: every
  claim involves only addition, subtraction and order of amounts, and the
  spec itself flags fixed-point integer minor units as the faithful amount
  representation).
* Timestamps (`time.time()`) are nondeterministic inputs; each constructor
  that stamps a timestamp takes it as an explicit argument.
* `hashlib.sha256(json.dumps(...))` is modelled as an abstract hash function
  (`Htx : Transaction → String` for transaction hashes, `Hblk : BlockContent →
  String` for block hashes) applied to the structured content that the source
  serializes.  The JSON serialization step is injective on the serialized
  fields, so collapsing it to the record of those fields is faithful; the
  genuinely non-injective step (SHA-256) is the abstract parameter, and claims
  that rely on collision resistance take the needed no-collision fact as a
  hypothesis.
* The unbounded proof-of-work `while` loop is modelled with explicit fuel
  (number of loop iterations allowed); `none` models non-termination within
  the given fuel.
* Python exceptions (indexing an empty list) are modelled with `Option`.
-/

namespace SimpleBlockchain

/-- Embedded transaction record as stored inside a block's transaction list
(a plain Python dict).  The genesis record has no `"hash"` key while records
produced by `Transaction.to_dict` do, hence `hash : Option String`. -/
structure TxRecord where
  sender : Option String
  recipient : Option String
  amount : Int
  timestamp : Nat
  hash : Option String
deriving DecidableEq

/-- Hashed content of a block: every `Block` attribute except the stored
`hash` itself, exactly the dict serialized in `Block.calculate_hash`. -/
structure BlockContent where
  index : Nat
  timestamp : Nat
  transactions : List TxRecord
  previous_hash : String
  nonce : Nat
deriving DecidableEq

/-- Embedding of the Python `Block` object. -/
structure Block where
  index : Nat
  timestamp : Nat
  transactions : List TxRecord
  previous_hash : String
  nonce : Nat
  hash : String
deriving DecidableEq

/-- The content that `Block.calculate_hash` serializes and hashes. -/
def Block.content (b : Block) : BlockContent :=
  ⟨b.index, b.timestamp, b.transactions, b.previous_hash, b.nonce⟩

/-- `Block.calculate_hash`: SHA-256 of the canonical serialization of the
block's content, modelled as the abstract hash `Hblk` of that content. -/
def Block.calculate_hash (Hblk : BlockContent → String) (b : Block) : String :=
  Hblk b.content

/-- `Block.__init__(index, transactions, previous_hash)`: stores the
attributes, stamps the timestamp, sets `nonce = 0` (the default) and computes
the initial hash. -/
def Block.make (Hblk : BlockContent → String) (index : Nat)
    (transactions : List TxRecord) (previous_hash : String)
    (timestamp : Nat) : Block :=
  { index := index, timestamp := timestamp, transactions := transactions,
    previous_hash := previous_hash, nonce := 0,
    hash := Hblk ⟨index, timestamp, transactions, previous_hash, 0⟩ }

/-- The proof-of-work test `hash[:difficulty] == "0" * difficulty` (also
`hash.startswith("0" * difficulty)` in `is_chain_valid`, which is the same
predicate): the first `d` characters of `s` exist and are all `'0'`. -/
def meetsTarget (s : String) (d : Nat) : Bool :=
  s.toList.take d == List.replicate d '0'

/-- `Block.mine_block(difficulty)`: repeatedly increment `nonce` and
recompute `hash` until the hash meets the difficulty target.  `fuel` bounds
the number of loop iterations; `none` models not terminating within `fuel`
iterations.  The target test runs before each iteration, exactly like the
Python `while` condition. -/
def Block.mineLoop (Hblk : BlockContent → String) (d : Nat) (fuel : Nat)
    (b : Block) : Option Block :=
  if meetsTarget b.hash d then some b
  else
    match fuel with
    | 0 => none
    | f + 1 =>
      Block.mineLoop Hblk d f
        { b with
          nonce := b.nonce + 1,
          hash := Hblk ⟨b.index, b.timestamp, b.transactions, b.previous_hash,
                        b.nonce + 1⟩ }

/-- Embedding of the Python `Transaction` object.  Its four attributes are
exactly the content serialized by `Transaction.calculate_hash`. -/
structure Transaction where
  sender : Option String
  recipient : Option String
  amount : Int
  timestamp : Nat
deriving DecidableEq

/-- `Transaction.calculate_hash`: abstract hash of the transaction's
serialized content (sender, recipient, amount, timestamp). -/
def Transaction.calculate_hash (Htx : Transaction → String)
    (t : Transaction) : String :=
  Htx t

/-- `Transaction.to_dict`: the plain record embedded into a block at mining
time, including the derived `"hash"` key. -/
def Transaction.to_dict (Htx : Transaction → String) (t : Transaction) :
    TxRecord :=
  ⟨t.sender, t.recipient, t.amount, t.timestamp,
   some (Transaction.calculate_hash Htx t)⟩

/-- `Transaction.is_valid`: false if `sender == recipient` (Python `==`,
with `None == None` true), false if `amount <= 0`, true otherwise. -/
def Transaction.is_valid (t : Transaction) : Bool :=
  if t.sender = t.recipient then false
  else if t.amount ≤ 0 then false
  else true

/-- Embedding of the Python `Blockchain` object. -/
structure Blockchain where
  chain : List Block
  difficulty : Nat
  pending_transactions : List Transaction
  mining_reward : Int
deriving DecidableEq

/-- `Blockchain.__init__(difficulty)` together with
`create_genesis_block()`: empty pending pool, `mining_reward = 100`, and a
single genesis block at index 0 with one synthetic record
`{sender: None, recipient: "genesis", amount: 0}` and `previous_hash = "0"`.
`tsTx` and `tsBlock` are the two `time.time()` reads. -/
def Blockchain.init (Hblk : BlockContent → String) (difficulty : Nat)
    (tsTx tsBlock : Nat) : Blockchain :=
  { chain := [Block.make Hblk 0 [⟨none, some "genesis", 0, tsTx, none⟩] "0"
                tsBlock],
    difficulty := difficulty,
    pending_transactions := [],
    mining_reward := 100 }

/-- `Blockchain.get_latest_block`: `chain[-1]`; `none` models the Python
`IndexError` on an empty chain. -/
def Blockchain.get_latest_block (c : Blockchain) : Option Block :=
  c.chain.getLast?

/-- One step of the `get_balance` inner loop: subtract the amount when the
record's sender matches, then add it when the recipient matches. -/
def balStep (address : Option String) (acc : Int) (r : TxRecord) : Int :=
  let acc2 := if r.sender = address then acc - r.amount else acc
  if r.recipient = address then acc2 + r.amount else acc2

/-- `Blockchain.get_balance(address)`: fold the balance step over every
record of every block in chain order, starting from 0. -/
def Blockchain.get_balance (c : Blockchain) (address : Option String) : Int :=
  c.chain.foldl (fun acc b => b.transactions.foldl (balStep address) acc) 0

/-- `Blockchain.add_transaction(transaction)`: reject when `is_valid()` is
false or when the sender's balance is below the amount; otherwise append to
the pending pool.  Returns the success flag together with the updated
chain state. -/
def Blockchain.add_transaction (c : Blockchain) (t : Transaction) :
    Bool × Blockchain :=
  if t.is_valid = false then (false, c)
  else if c.get_balance t.sender < t.amount then (false, c)
  else (true,
    { c with pending_transactions := c.pending_transactions ++ [t] })

/-- `Blockchain.mine_pending_transactions(mining_reward_address)`: append the
reward transaction (`sender = None`, recipient the reward address, amount
`mining_reward`, stamped `tsReward`) to the pending pool, build a block at
index `len(chain)` from the `to_dict` snapshots with
`previous_hash = get_latest_block().hash` (stamped `tsBlock`), mine it with
the given fuel, append it and clear the pool.  `none` models mining not
terminating within `fuel` iterations (in which case no block is appended). -/
def Blockchain.mine_pending_transactions (Htx : Transaction → String)
    (Hblk : BlockContent → String) (c : Blockchain)
    (mining_reward_address : String) (tsReward tsBlock : Nat) (fuel : Nat) :
    Option Blockchain :=
  match c.chain.getLast? with
  | none => none
  | some latest =>
    match Block.mineLoop Hblk c.difficulty fuel
        (Block.make Hblk c.chain.length
          ((c.pending_transactions ++
            [(⟨none, some mining_reward_address, c.mining_reward, tsReward⟩ : Transaction)]).map
            (Transaction.to_dict Htx))
          latest.hash tsBlock) with
    | none => none
    | some mined =>
      some { c with chain := c.chain ++ [mined], pending_transactions := [] }

/-- The `is_chain_valid` loop from index 1 upward: `prev` is the block at the
previous index; each block must (a) have its stored hash equal to the
recomputed content hash, (b) link to `prev.hash`, and (c) meet the
difficulty target. -/
def validFrom (Hblk : BlockContent → String) (d : Nat) :
    Block → List Block → Bool
  | _, [] => true
  | prev, b :: rest =>
    (b.hash == Hblk b.content) && (b.previous_hash == prev.hash) &&
      meetsTarget b.hash d && validFrom Hblk d b rest

/-- `Blockchain.is_chain_valid()`: run the three checks for every index
`i ≥ 1` (the genesis block is never checked), short-circuiting on the first
failure. -/
def Blockchain.is_chain_valid (Hblk : BlockContent → String)
    (c : Blockchain) : Bool :=
  match c.chain with
  | [] => true
  | g :: rest => validFrom Hblk c.difficulty g rest

/-- Record returned by `get_chain_info`. -/
structure ChainInfo where
  blocks : Nat
  difficulty : Nat
  pending_transactions : Nat
  is_valid : Bool
deriving DecidableEq

/-- `Blockchain.get_chain_info()`: block count, difficulty, pending count
and validity. -/
def Blockchain.get_chain_info (Hblk : BlockContent → String)
    (c : Blockchain) : ChainInfo :=
  ⟨c.chain.length, c.difficulty, c.pending_transactions.length,
   c.is_chain_valid Hblk⟩

/-- Replace the record at position `j` of a block's transaction list,
leaving every other attribute (in particular the stored `hash`) unchanged:
the in-place tampering `block.transactions[j][field] = v` of the demo. -/
def Block.setTx (b : Block) (j : Nat) (r : TxRecord) : Block :=
  { b with transactions := b.transactions.set j r }

/-- Apply `f` to the element at position `i`, leaving the rest unchanged. -/
def modifyAt (f : Block → Block) : Nat → List Block → List Block
  | _, [] => []
  | 0, b :: rest => f b :: rest
  | n + 1, b :: rest => b :: modifyAt f n rest

/-- Tampering with the chain: replace record `j` of block `i` by `r`,
keeping the block's stored hash (dict mutation does not touch `hash`). -/
def tamper (c : Blockchain) (i j : Nat) (r : TxRecord) : Blockchain :=
  { c with chain := modifyAt (fun b => b.setTx j r) i c.chain }

/-- Adjacency relation of the chain-linkage invariant: the later block's
`previous_hash` is the earlier block's stored hash. -/
def linkRel (a b : Block) : Prop := b.previous_hash = a.hash

instance : DecidableRel linkRel := fun a b =>
  inferInstanceAs (Decidable (b.previous_hash = a.hash))

/-- Chain-linkage invariant of the spec: the chain is non-empty, the first
block has `previous_hash = "0"` (the first conjunct forces both), and each
block at index `i ≥ 1` has `previous_hash` equal to the hash of the block at
`i - 1` (expressed as the pairwise-adjacent condition `List.Chain'`). -/
def chainInvariant (c : Blockchain) : Prop :=
  (c.chain.map Block.previous_hash).head? = some "0" ∧
    List.Chain' linkRel c.chain

instance (c : Blockchain) : Decidable (chainInvariant c) :=
  inferInstanceAs (Decidable (_ ∧ _))

/-- Per-record balance contribution described by the spec: `+amount` when
the recipient matches, `-amount` when the sender matches. -/
def txDelta (address : Option String) (r : TxRecord) : Int :=
  (if r.recipient = address then r.amount else 0) -
    (if r.sender = address then r.amount else 0)

/-- Modelled from the spec: `getBalance(address)` as the spec describes
it — the sum over all transaction records in all blocks, in chain order, of
the per-record contribution.  Refinement target for `get_balance`. -/
def balanceSpec (c : Blockchain) (address : Option String) : Int :=
  ((c.chain.map Block.transactions).flatten.map (txDelta address)).sum

lemma foldl_balStep (a : Option String) (rs : List TxRecord) (acc : Int) :
    rs.foldl (balStep a) acc = acc + (rs.map (txDelta a)).sum := by
  induction rs generalizing acc with
  | nil => simp
  | cons r rs ih =>
    rw [List.foldl_cons, ih]
    simp only [List.map_cons, List.sum_cons, balStep, txDelta]
    split <;> split <;> ring

lemma foldl_blocks (a : Option String) (l : List Block) (acc : Int) :
    l.foldl (fun acc b => b.transactions.foldl (balStep a) acc) acc
      = acc + ((l.map Block.transactions).flatten.map (txDelta a)).sum := by
  induction l generalizing acc with
  | nil => simp
  | cons b l ih =>
    rw [List.foldl_cons, ih, foldl_balStep]
    simp [List.sum_append, add_assoc]

lemma mineLoop_preserves (Hblk : BlockContent → String) (d : Nat) :
    ∀ (fuel : Nat) (b b' : Block), Block.mineLoop Hblk d fuel b = some b' →
      b'.index = b.index ∧ b'.timestamp = b.timestamp ∧
      b'.transactions = b.transactions ∧ b'.previous_hash = b.previous_hash := by
  intro fuel
  induction fuel with
  | zero =>
    intro b b' h
    unfold Block.mineLoop at h
    split at h
    · cases h; exact ⟨rfl, rfl, rfl, rfl⟩
    · exact Option.noConfusion h
  | succ f ih =>
    intro b b' h
    unfold Block.mineLoop at h
    split at h
    · cases h; exact ⟨rfl, rfl, rfl, rfl⟩
    · have h' : Block.mineLoop Hblk d f
          { b with
            nonce := b.nonce + 1,
            hash := Hblk ⟨b.index, b.timestamp, b.transactions,
                          b.previous_hash, b.nonce + 1⟩ } = some b' := h
      obtain ⟨h1, h2, h3, h4⟩ := ih _ _ h'
      exact ⟨h1, h2, h3, h4⟩

lemma validFrom_hash (Hblk : BlockContent → String) (d : Nat) :
    ∀ (p : Block) (l : List Block), validFrom Hblk d p l = true →
      ∀ (k : Nat) (hk : k < l.length),
        (l.get ⟨k, hk⟩).hash = Hblk (l.get ⟨k, hk⟩).content := by
  intro p l
  induction l generalizing p with
  | nil => intro _ k hk; exact absurd hk (by simp)
  | cons b rest ih =>
    intro h k hk
    simp only [validFrom, Bool.and_eq_true, beq_iff_eq] at h
    obtain ⟨⟨⟨h1, h2⟩, h3⟩, h4⟩ := h
    cases k with
    | zero => exact h1
    | succ k => exact ih b h4 k (by simpa using hk)

lemma validFrom_modify_false (Hblk : BlockContent → String) (d : Nat)
    (f : Block → Block) :
    ∀ (l : List Block) (p : Block) (k : Nat) (hk : k < l.length),
      (f (l.get ⟨k, hk⟩)).hash ≠ Hblk (f (l.get ⟨k, hk⟩)).content →
      validFrom Hblk d p (modifyAt f k l) = false := by
  intro l
  induction l with
  | nil => intro p k hk; exact absurd hk (by simp)
  | cons b rest ih =>
    intro p k hk hne
    cases k with
    | zero =>
      have hb : ((f b).hash == Hblk (f b).content) = false :=
        beq_eq_false_iff_ne.mpr hne
      simp only [modifyAt, validFrom]
      simp [hb]
    | succ k =>
      have ht := ih b k (by simpa using hk) (by simpa using hne)
      simp only [modifyAt, validFrom]
      simp [ht]

lemma add_transaction_chain (c : Blockchain) (t : Transaction) :
    (c.add_transaction t).2.chain = c.chain := by
  unfold Blockchain.add_transaction
  split
  · rfl
  · split <;> rfl

lemma is_valid_iff (t : Transaction) :
    t.is_valid = true ↔ t.sender ≠ t.recipient ∧ 0 < t.amount := by
  unfold Transaction.is_valid
  split
  next he => simp [he]
  next he =>
    split
    next ha => simp [not_lt.mpr ha]
    next ha => simp [he, not_le.mp ha]

/-- C5: for every chain state and every address, `get_balance` equals the
sum, over all transaction records in all blocks in chain order, of
`+amount` for records whose recipient matches minus `amount` for records
whose sender matches (`balanceSpec`, written from the spec's words).  The
call is a pure function of the chain in this embedding, so it reads the
chain only and modifies nothing. -/
theorem spec_C5 (c : Blockchain) (a : Option String) :
    c.get_balance a = balanceSpec c a := by
  unfold Blockchain.get_balance balanceSpec
  simpa using foldl_blocks a c.chain 0

/-- C6: `add_transaction` reports failure exactly when the transaction is
invalid or the sender's computed balance is strictly below the amount; on
failure the pending pool is unchanged, and on success the transaction is
appended to the pending pool.  The operation is a total function in this
embedding, so no exception is raised. -/
theorem spec_C6 (c : Blockchain) (t : Transaction) :
    ((c.add_transaction t).1 = false ↔
      t.is_valid = false ∨ c.get_balance t.sender < t.amount) ∧
    ((c.add_transaction t).1 = false →
      (c.add_transaction t).2.pending_transactions = c.pending_transactions) ∧
    ((c.add_transaction t).1 = true →
      (c.add_transaction t).2.pending_transactions
        = c.pending_transactions ++ [t]) := by
  unfold Blockchain.add_transaction
  split
  next h => simp [h]
  next h =>
    split
    next hb => simp [h, hb]
    next hb => simp [h, hb]

/-- C7: for every transaction with a non-null recipient, `is_valid` returns
true iff the sender is null or differs from the recipient, and the amount is
positive.  The call is a pure function in this embedding (no side
effects). -/
theorem spec_C7 (t : Transaction) (r : String) (h : t.recipient = some r) :
    t.is_valid = true ↔
      (t.sender = none ∨ t.sender ≠ t.recipient) ∧ 0 < t.amount := by
  rw [is_valid_iff]
  constructor
  · rintro ⟨hne, ha⟩
    exact ⟨Or.inr hne, ha⟩
  · rintro ⟨hor, ha⟩
    refine ⟨?_, ha⟩
    rcases hor with hs | hne
    · rw [hs, h]
      exact fun hh => Option.noConfusion hh
    · exact hne

/-- C9: mining with difficulty 0 terminates immediately for every block:
the loop returns the block unchanged (same nonce) for every fuel bound,
including fuel 0, i.e. the loop body runs zero times. -/
theorem spec_C9 (Hblk : BlockContent → String) (fuel : Nat) (b : Block) :
    Block.mineLoop Hblk 0 fuel b = some b := by
  unfold Block.mineLoop
  simp [meetsTarget]

/-- C10: a transaction whose sender and recipient are both null is invalid:
the `sender == recipient` comparison is applied even to a null sender
(`None == None` is true in Python), so `is_valid` returns false. -/
theorem spec_C10 (t : Transaction) (hs : t.sender = none)
    (hr : t.recipient = none) : t.is_valid = false := by
  unfold Transaction.is_valid
  rw [hs, hr]
  simp

/-- C10 witness: the concrete transaction (None, None, 5) is invalid. -/
theorem spec_C10_witness :
    Transaction.is_valid ⟨none, none, 5, 0⟩ = false :=
  spec_C10 ⟨none, none, 5, 0⟩ rfl rfl

/-- C7 witness: for the concrete transaction (None, "Bob", 5) the
characterization holds. -/
theorem spec_C7_witness :
    Transaction.is_valid ⟨none, some "Bob", 5, 0⟩ = true ↔
      ((none : Option String) = none ∨
        (none : Option String) ≠ some "Bob") ∧ (0 : Int) < 5 :=
  spec_C7 ⟨none, some "Bob", 5, 0⟩ "Bob" rfl

/-- Concrete hash functions and chain states used by the witnesses and the
counterexample. -/
def Htx0 : Transaction → String := fun _ => ""

def HW0 : BlockContent → String := fun _ => ""

def HW1 : BlockContent → String := fun _ => "0"

/-- Freshly constructed chain with the source's default difficulty 2. -/
def chainW0 : Blockchain := Blockchain.init HW0 2 0 0

/-- A valid null-sender transaction of amount 50. -/
def txNullW : Transaction := ⟨none, some "X", 50, 1⟩

/-- Freshly constructed chain with difficulty 0, so mining succeeds with
fuel 0. -/
def chainM0 : Blockchain := Blockchain.init HW0 0 0 0

/-- The chain obtained from `chainM0` by one mining operation. -/
def chainM1 : Blockchain :=
  match chainM0.mine_pending_transactions Htx0 HW0 "Miner1" 1 2 0 with
  | some c => c
  | none => chainM0

/-- C1 counterexample: on a freshly constructed chain (source default
difficulty 2) the valid null-sender transaction (None, "X", 50) fails the
balance check of `add_transaction` — `get_balance(None) = 0 < 50` — and is
rejected even though `is_valid()` holds.  The code has no null-sender
exemption from the balance check. -/
theorem spec_C1_counterexample :
    txNullW.sender = none ∧ txNullW.is_valid = true ∧
    chainW0.get_balance txNullW.sender < txNullW.amount ∧
    (chainW0.add_transaction txNullW).1 = false := by decide

/-- C1 amended: a null-sender transaction is balance-checked like any
other — `add_transaction` rejects it exactly when it is invalid or
`get_balance(None)` is strictly below its amount.  (Reward transactions are
never balance-checked only because `mine_pending_transactions` appends them
to the pool directly, bypassing `add_transaction`.) -/
theorem spec_C1_amended (c : Blockchain) (t : Transaction)
    (hs : t.sender = none) :
    (c.add_transaction t).1 = false ↔
      t.is_valid = false ∨ c.get_balance none < t.amount := by
  unfold Blockchain.add_transaction
  rw [hs]
  split
  next h => simp [h]
  next h =>
    split
    next hb => simp [h, hb]
    next hb => simp [h, hb]

/-- C1 amended witness: the amended characterization at the concrete
rejected transaction of the counterexample. -/
theorem spec_C1_amended_witness :
    (chainW0.add_transaction txNullW).1 = false ↔
      txNullW.is_valid = false ∨ chainW0.get_balance none < txNullW.amount :=
  spec_C1_amended chainW0 txNullW rfl

/-- C6 witness: the characterization of `add_transaction` at a concrete
chain and transaction. -/
theorem spec_C6_witness :
    ((chainW0.add_transaction txNullW).1 = false ↔
      txNullW.is_valid = false ∨
        chainW0.get_balance txNullW.sender < txNullW.amount) ∧
    ((chainW0.add_transaction txNullW).1 = false →
      (chainW0.add_transaction txNullW).2.pending_transactions
        = chainW0.pending_transactions) ∧
    ((chainW0.add_transaction txNullW).1 = true →
      (chainW0.add_transaction txNullW).2.pending_transactions
        = chainW0.pending_transactions ++ [txNullW]) :=
  spec_C6 chainW0 txNullW

/-- C8: if the proof-of-work loop terminates within its fuel bound, the
resulting block's hash meets the difficulty target (at least `d` leading
`'0'` characters) and equals the content hash recomputed from the block's
current attributes.  The hypothesis `b.hash = Hblk b.content` is the
invariant every block has at construction (`Block.__init__` sets
`hash = calculate_hash()`). -/
theorem spec_C8 (Hblk : BlockContent → String) (d : Nat) :
    ∀ (fuel : Nat) (b b' : Block), b.hash = Hblk b.content →
      Block.mineLoop Hblk d fuel b = some b' →
      meetsTarget b'.hash d = true ∧ b'.hash = Hblk b'.content := by
  intro fuel
  induction fuel with
  | zero =>
    intro b b' hinv h
    unfold Block.mineLoop at h
    split at h
    next hc => cases h; exact ⟨hc, hinv⟩
    next hc => exact Option.noConfusion h
  | succ f ih =>
    intro b b' hinv h
    unfold Block.mineLoop at h
    split at h
    next hc => cases h; exact ⟨hc, hinv⟩
    next hc =>
      have h' : Block.mineLoop Hblk d f
          { b with
            nonce := b.nonce + 1,
            hash := Hblk ⟨b.index, b.timestamp, b.transactions,
                          b.previous_hash, b.nonce + 1⟩ } = some b' := h
      exact ih _ _ rfl h'

/-- C8 witness: under the constant hash "0" a freshly built block already
meets difficulty 1, and the loop confirms both conclusions. -/
theorem spec_C8_witness :
    meetsTarget (Block.make HW1 7 [] "p" 3).hash 1 = true ∧
      (Block.make HW1 7 [] "p" 3).hash = HW1 (Block.make HW1 7 [] "p" 3).content :=
  spec_C8 HW1 1 0 (Block.make HW1 7 [] "p" 3) (Block.make HW1 7 [] "p" 3)
    rfl (by decide)

/-- C3: the chain-linkage invariant — the chain is non-empty, the genesis
block has `previous_hash = "0"`, and every later block's `previous_hash`
equals its predecessor's hash — holds after construction and is preserved by
`add_transaction` and by every terminating `mine_pending_transactions`.
The remaining public operations (`get_balance`, `is_chain_valid`,
`get_latest_block`, `get_chain_info`) are pure functions in this embedding
and cannot modify the chain, so they preserve the invariant by
construction. -/
theorem spec_C3 (Htx : Transaction → String) (Hblk : BlockContent → String) :
    (∀ d tsTx tsBlock, chainInvariant (Blockchain.init Hblk d tsTx tsBlock)) ∧
    (∀ c t, chainInvariant c → chainInvariant (c.add_transaction t).2) ∧
    (∀ c addr tsReward tsBlock fuel c', chainInvariant c →
      c.mine_pending_transactions Htx Hblk addr tsReward tsBlock fuel = some c' →
      chainInvariant c') := by
  refine ⟨?_, ?_, ?_⟩
  · intro d t1 t2
    exact ⟨rfl, List.chain'_singleton _⟩
  · intro c t h
    have hc := add_transaction_chain c t
    unfold chainInvariant at h ⊢
    rw [hc]
    exact h
  · intro c addr t1 t2 fuel c' h hm
    unfold Blockchain.mine_pending_transactions at hm
    split at hm
    · exact Option.noConfusion hm
    next latest hl =>
      split at hm
      · exact Option.noConfusion hm
      next mined hmine =>
        injection hm with hm
        subst hm
        obtain ⟨h1, h2⟩ := h
        constructor
        · cases hchain : c.chain with
          | nil => rw [hchain] at h1; exact Option.noConfusion h1
          | cons g rest =>
            rw [hchain] at h1
            show (((g :: rest) ++ [mined]).map Block.previous_hash).head?
              = some "0"
            simp only [List.cons_append, List.map_cons, List.head?_cons]
            simpa using h1
        · refine List.chain'_append.mpr ⟨h2, List.chain'_singleton _, ?_⟩
          intro x hx y hy
          rw [Option.mem_def, hl, Option.some_inj] at hx
          rw [Option.mem_def, List.head?_cons, Option.some_inj] at hy
          subst hx
          subst hy
          exact (mineLoop_preserves Hblk c.difficulty fuel _ mined hmine).2.2.2

/-- C3 witness: the invariant holds on the fresh chain and survives a
concrete `add_transaction`. -/
theorem spec_C3_witness :
    chainInvariant (chainM0.add_transaction txNullW).2 :=
  (spec_C3 Htx0 HW0).2.1 chainM0 txNullW ((spec_C3 Htx0 HW0).1 0 0 0)

/-- C4: a terminating `mine_pending_transactions` appends exactly one block
whose index is the previous chain length, whose `previous_hash` is the hash
of the previously latest block, and whose transaction list is the `to_dict`
snapshot of the prior pending pool followed by the reward transaction
(sender None, recipient the reward address, amount `mining_reward`);
afterwards the pending pool is empty. -/
theorem spec_C4 (Htx : Transaction → String) (Hblk : BlockContent → String)
    (c : Blockchain) (addr : String) (tsReward tsBlock fuel : Nat)
    (c' : Blockchain)
    (h : c.mine_pending_transactions Htx Hblk addr tsReward tsBlock fuel
      = some c') :
    ∃ mined latest, c.chain.getLast? = some latest ∧
      c'.chain = c.chain ++ [mined] ∧
      mined.index = c.chain.length ∧
      mined.previous_hash = latest.hash ∧
      mined.transactions = (c.pending_transactions ++
        [(⟨none, some addr, c.mining_reward, tsReward⟩ : Transaction)]).map
          (Transaction.to_dict Htx) ∧
      c'.pending_transactions = [] := by
  unfold Blockchain.mine_pending_transactions at h
  split at h
  · exact Option.noConfusion h
  next latest hl =>
    split at h
    · exact Option.noConfusion h
    next mined hmine =>
      injection h with h
      subst h
      obtain ⟨h1, h2, h3, h4⟩ :=
        mineLoop_preserves Hblk c.difficulty fuel _ mined hmine
      exact ⟨mined, latest, hl, rfl, h1, h4, h3, rfl⟩

lemma is_chain_valid_tamper (Hblk : BlockContent → String) (d : Nat)
    (g : Block) (rest : List Block) (k j : Nat) (hk : k < rest.length)
    (r' : TxRecord) (hval : validFrom Hblk d g rest = true)
    (hcoll : Hblk ((rest.get ⟨k, hk⟩).setTx j r').content ≠
      Hblk (rest.get ⟨k, hk⟩).content) :
    validFrom Hblk d g (modifyAt (fun b => b.setTx j r') k rest) = false ∧
    Hblk ((rest.get ⟨k, hk⟩).setTx j r').content ≠
      ((rest.get ⟨k, hk⟩).setTx j r').hash := by
  have hstored := validFrom_hash Hblk d g rest hval k hk
  have hne : ((rest.get ⟨k, hk⟩).setTx j r').hash ≠
      Hblk ((rest.get ⟨k, hk⟩).setTx j r').content := by
    have hh : ((rest.get ⟨k, hk⟩).setTx j r').hash
        = (rest.get ⟨k, hk⟩).hash := rfl
    rw [hh, hstored]
    exact Ne.symm hcoll
  exact ⟨validFrom_modify_false Hblk d _ rest g k hk hne, Ne.symm hne⟩

/-- C2: on a valid chain, replacing any transaction record inside any
non-genesis block by a record that differs in sender, recipient, amount or
timestamp makes `is_chain_valid` return false, and the offence is the
content-hash recomputation check at the mutated block: the recomputed hash
of the mutated block no longer equals its stored hash.  The hypothesis
`hcoll` — that the abstract hash separates the mutated content from the
original content — is the embedding's stand-in for SHA-256 collision
resistance; everything else is proved from the code. -/
theorem spec_C2 (Hblk : BlockContent → String) (c : Blockchain) (i j : Nat)
    (r' : TxRecord) (hval : c.is_chain_valid Hblk = true) (h1 : 1 ≤ i)
    (hi : i < c.chain.length)
    (hj : j < (c.chain.get ⟨i, hi⟩).transactions.length)
    (hfield :
      r'.sender ≠ ((c.chain.get ⟨i, hi⟩).transactions.get ⟨j, hj⟩).sender ∨
      r'.recipient ≠
        ((c.chain.get ⟨i, hi⟩).transactions.get ⟨j, hj⟩).recipient ∨
      r'.amount ≠ ((c.chain.get ⟨i, hi⟩).transactions.get ⟨j, hj⟩).amount ∨
      r'.timestamp ≠
        ((c.chain.get ⟨i, hi⟩).transactions.get ⟨j, hj⟩).timestamp)
    (hcoll : Hblk ((c.chain.get ⟨i, hi⟩).setTx j r').content ≠
      Hblk (c.chain.get ⟨i, hi⟩).content) :
    (tamper c i j r').is_chain_valid Hblk = false ∧
    Hblk ((c.chain.get ⟨i, hi⟩).setTx j r').content ≠
      ((c.chain.get ⟨i, hi⟩).setTx j r').hash := by
  obtain ⟨k, rfl⟩ : ∃ k, i = k + 1 :=
    ⟨i - 1, (Nat.succ_pred_eq_of_pos h1).symm⟩
  obtain ⟨chain, d, pend, rew⟩ := c
  cases chain with
  | nil => exact absurd hi (by simp)
  | cons g rest =>
    have hk : k < rest.length := by simpa using hi
    have hval' : validFrom Hblk d g rest = true := hval
    have hcoll' : Hblk ((rest.get ⟨k, hk⟩).setTx j r').content ≠
        Hblk (rest.get ⟨k, hk⟩).content := hcoll
    obtain ⟨hfalse, hne⟩ :=
      is_chain_valid_tamper Hblk d g rest k j hk r' hval' hcoll'
    exact ⟨hfalse, hne⟩

/-- Hash function for the C2 witness: separates block contents that contain
a record of amount 101 from those that do not. -/
def HW2 : BlockContent → String :=
  fun bc => if bc.transactions.any (fun r => r.amount == 101) then "x" else ""

/-- Fresh difficulty-0 chain hashed with `HW2`. -/
def chainT0 : Blockchain := Blockchain.init HW2 0 0 0

/-- The chain `chainT0` after one mining operation: two blocks, valid. -/
def chainT1 : Blockchain :=
  match chainT0.mine_pending_transactions Htx0 HW2 "Miner1" 1 2 0 with
  | some c => c
  | none => chainT0

/-- Tampered record for the C2 witness: the mined reward record with its
amount changed from 100 to 101. -/
def recT : TxRecord := ⟨none, some "Miner1", 101, 1, some ""⟩

/-- C2 witness: tampering with the reward record of block 1 of the valid
two-block chain `chainT1` is detected. -/
theorem spec_C2_witness :
    (tamper chainT1 1 0 recT).is_chain_valid HW2 = false :=
  (spec_C2 HW2 chainT1 1 0 recT (by decide) (by decide) (by decide)
    (by decide) (by decide) (by decide)).1

/-- C4 witness: one concrete mining step on the fresh difficulty-0 chain. -/
theorem spec_C4_witness :
    ∃ mined latest, chainM0.chain.getLast? = some latest ∧
      chainM1.chain = chainM0.chain ++ [mined] ∧
      mined.index = chainM0.chain.length ∧
      mined.previous_hash = latest.hash ∧
      mined.transactions = (chainM0.pending_transactions ++
        [(⟨none, some "Miner1", chainM0.mining_reward, 1⟩ : Transaction)]).map
          (Transaction.to_dict Htx0) ∧
      chainM1.pending_transactions = [] :=
  spec_C4 Htx0 HW0 chainM0 "Miner1" 1 2 0 chainM1 (by decide)

end SimpleBlockchain
